import Mathlib

/-!
Verification of the draft-reconciliation and data-synchronization layer of the
PaystubGen application (`src/context/DataProvider.tsx`, later revision).

The embedding below translates the TypeScript source into Lean:
* the four domain records (`Team`, `Employee`, `ProductionItem`, `ProductionEntry`)
  from `src/lib/types.ts`; calendar dates (ISO `yyyy-mm-dd` strings produced by
  `formatISO`) are modelled by their epoch-day number (`Nat`), an injective
  rendering that every component of the provider uses consistently;
* JavaScript `Record<string, T>` objects are modelled as association lists in
  key-insertion order; `{...prev, [k]: v}` is `upsert` (replace in place if the
  key exists, append otherwise), matching JS object-spread semantics;
* JS `parseFloat` / `parseInt(·, 10)` are modelled exactly on sign, zeroness and
  integer values (`parseFloatJS` returns an exact rational; the IEEE infinity
  produced by a literal `Infinity` is modelled by a rational of the same sign,
  which is all the stated properties depend on);
* Firestore writes are reified as `WriteOp` values; a batch is the list of
  operations added to it, and `batch.commit()` outcomes are an explicit boolean
  parameter, with emitted `FirestorePermissionError` events reified as data.
-/

/-! ## Entity schema (`src/lib/types.ts`) -/

structure Team where
  id : String
  name : String
deriving DecidableEq, Repr

structure Employee where
  id : String
  name : String
  teamId : String
deriving DecidableEq, Repr

structure ProductionItem where
  id : String
  name : String
  payRate : Rat
  teamId : String
deriving DecidableEq, Repr

/-- `date` is the epoch-day number standing for the ISO calendar-date string. -/
structure ProductionEntry where
  id : String
  employeeId : String
  productionItemId : String
  date : Nat
  quantity : Int
deriving DecidableEq, Repr

/-! ## JavaScript numeric coercion

`handleRateChange` uses `parseFloat(newRate) || 0`; `handleProductionChange`
uses `parseInt(value, 10)` with a `NaN` check.  Both are modelled here:
`none` stands for `NaN`. -/

/-- Numeric value of a list of decimal digit characters. -/
def digitsVal (ds : List Char) : Nat :=
  ds.foldl (fun acc c => 10 * acc + (c.toNat - '0'.toNat)) 0

/-- JS `parseInt(s, 10)`: skip leading whitespace, optional sign, then the
longest prefix of decimal digits; `NaN` (here `none`) if there are no digits. -/
def parseIntJS (s : String) : Option Int :=
  let cs := s.toList.dropWhile (·.isWhitespace)
  let signed : Int × List Char :=
    match cs with
    | '-' :: r => (-1, r)
    | '+' :: r => (1, r)
    | _ => (1, cs)
  let ds := signed.2.takeWhile (·.isDigit)
  if ds.isEmpty then none else some (signed.1 * digitsVal ds)

/-- Model of the IEEE `Infinity` that `parseFloat("Infinity")` yields: a
positive rational larger than every finite double.  Only its sign and
nonzeroness are relevant to any property proved in this file. -/
def jsInfinity : Rat := 10 ^ 400

/-- Exponent part of a JS float literal: optional sign then digits.  A
malformed exponent contributes nothing (JS takes the longest valid prefix of
the literal, so `"1e"` parses as `1`). -/
def expVal (cs : List Char) : Int :=
  let signed : Int × List Char :=
    match cs with
    | '-' :: r => (-1, r)
    | '+' :: r => (1, r)
    | _ => (1, cs)
  let ds := signed.2.takeWhile (·.isDigit)
  if ds.isEmpty then 0 else signed.1 * digitsVal ds

/-- JS `parseFloat(s)`: skip leading whitespace, optional sign, then the
longest prefix that is a decimal literal (`digits`, `digits.digits`,
`.digits`, optional exponent) or `Infinity`; `NaN` (here `none`) otherwise.
The numeric value is kept as an exact rational. -/
def parseFloatJS (s : String) : Option Rat :=
  let cs := s.toList.dropWhile (·.isWhitespace)
  let signed : Rat × List Char :=
    match cs with
    | '-' :: r => (-1, r)
    | '+' :: r => (1, r)
    | _ => (1, cs)
  if ("Infinity".toList).isPrefixOf signed.2 then
    some (signed.1 * jsInfinity)
  else
    let intPart := signed.2.takeWhile (·.isDigit)
    let rest1 := signed.2.dropWhile (·.isDigit)
    let fracRest : List Char × List Char :=
      match rest1 with
      | '.' :: r => (r.takeWhile (·.isDigit), r.dropWhile (·.isDigit))
      | _ => ([], rest1)
    if intPart.isEmpty && fracRest.1.isEmpty then none
    else
      let mantissa : Rat :=
        (digitsVal intPart : Rat) + (digitsVal fracRest.1 : Rat) / (10 ^ fracRest.1.length)
      let e : Int :=
        match fracRest.2 with
        | 'e' :: r => expVal r
        | 'E' :: r => expVal r
        | _ => 0
      if 0 ≤ e then some (signed.1 * (mantissa * 10 ^ e.toNat))
      else some (signed.1 * (mantissa / 10 ^ (-e).toNat))

/-- `parseFloat(x) || 0`: `NaN` and `±0` both coerce to `0`. -/
def jsOr0 (x : Option Rat) : Rat :=
  match x with
  | none => 0
  | some q => if q = 0 then 0 else q

/-! ## `Record<string, T>` as an insertion-ordered association list -/

/-- `{...prev, [k]: v}` on a JS object: replace the value at `k` in place if
the key is present, otherwise append the new key at the end. -/
def upsert {α : Type} : List (String × α) → String → α → List (String × α)
  | [], k, v => [(k, v)]
  | p :: rest, k, v => if p.1 = k then (k, v) :: rest else p :: upsert rest k v

/-- Property lookup `obj[k]`. -/
def lookup {α : Type} (l : List (String × α)) (k : String) : Option α :=
  (l.find? (fun p => p.1 == k)).map (·.2)

/-- `Object.values(obj)`, in key-insertion order. -/
def values {α : Type} (l : List (String × α)) : List α := l.map (·.2)

/-! ## Draft Overlay (`localRates`, `localProduction`, `hasChanges`)

State and mutations of the draft overlay, translated from
`handleRateChange`, `handleProductionChange` and `resetProduction` in
`DataProvider.tsx`.  `weekStart` is the epoch-day number of the Monday of the
current week (`startOfWeek(new Date(), { weekStartsOn: 1 })`). -/

structure OverlayState where
  rates : List (String × Rat)
  prod : List (String × ProductionEntry)
  dirty : Bool
deriving DecidableEq, Repr

/-- The cell predicate used by `handleProductionChange` to locate an existing
overlay entry for a given (employee, item, date) key. -/
def cellMatch (employeeId itemId : String) (date : Nat) (p : ProductionEntry) : Bool :=
  p.employeeId == employeeId && p.productionItemId == itemId && p.date == date

/-- `handleRateChange(itemId, newRate)`:
`setLocalRates(prev => ({ ...prev, [itemId]: parseFloat(newRate) || 0 }))`
followed by `setHasChanges(true)`. -/
def handleRateChange (st : OverlayState) (itemId newRate : String) : OverlayState :=
  { st with rates := upsert st.rates itemId (jsOr0 (parseFloatJS newRate)), dirty := true }

/-- The locally generated temporary key
`new-${employeeId}-${itemId}-${dateString}`. -/
def tempKey (employeeId itemId : String) (date : Nat) : String :=
  "new-" ++ employeeId ++ "-" ++ itemId ++ "-" ++ toString date

/-- `handleProductionChange(employeeId, itemId, dayIndex, value)`: parses
`value` as an integer treating `NaN` as `0`, resolves the date as
`weekStart + dayIndex`, then either updates the existing overlay entry for
that cell in place (an empty string forcing quantity `0`) or synthesizes a
new provisional entry under a temporary key; sets the dirty flag. -/
def handleProductionChange (weekStart : Nat) (st : OverlayState)
    (employeeId itemId : String) (dayIndex : Nat) (value : String) : OverlayState :=
  let finalQuantity : Int := (parseIntJS value).getD 0
  let date := weekStart + dayIndex
  match (values st.prod).find? (cellMatch employeeId itemId date) with
  | some existingEntry =>
      { st with
        prod := upsert st.prod existingEntry.id
          { existingEntry with quantity := if value == "" then 0 else finalQuantity },
        dirty := true }
  | none =>
      let tempId := tempKey employeeId itemId date
      { st with
        prod := upsert st.prod tempId
          ⟨tempId, employeeId, itemId, date, finalQuantity⟩,
        dirty := true }

/-- `resetProduction(teamId)`: zero the quantity of every overlay entry whose
employee belongs to the team; set the dirty flag.  Rates are untouched. -/
def resetProduction (employees : List Employee) (st : OverlayState)
    (teamId : String) : OverlayState :=
  let teamEmployeeIds := (employees.filter (fun e => e.teamId == teamId)).map (·.id)
  { st with
    prod := st.prod.map (fun kv =>
      if teamEmployeeIds.contains kv.2.employeeId then
        (kv.1, { kv.2 with quantity := 0 })
      else kv),
    dirty := true }

/-- One user-triggered draft-overlay mutation. -/
inductive DraftMut where
  | rateChange (itemId newRate : String)
  | prodChange (employeeId itemId : String) (dayIndex : Nat) (value : String)
  | reset (teamId : String)
deriving DecidableEq, Repr

/-- Apply one mutation to the overlay. -/
def applyMut (weekStart : Nat) (employees : List Employee)
    (st : OverlayState) : DraftMut → OverlayState
  | .rateChange itemId newRate => handleRateChange st itemId newRate
  | .prodChange employeeId itemId dayIndex value =>
      handleProductionChange weekStart st employeeId itemId dayIndex value
  | .reset teamId => resetProduction employees st teamId

/-- All rates and quantities stored in the overlay are non-negative. -/
def NonNegOverlay (st : OverlayState) : Prop :=
  (∀ kv ∈ st.rates, 0 ≤ kv.2) ∧ (∀ kv ∈ st.prod, 0 ≤ kv.2.quantity)

instance (st : OverlayState) : Decidable (NonNegOverlay st) := by
  unfold NonNegOverlay; infer_instance

/-- The raw input of a mutation does not parse to a negative number (empty
and non-numeric input count as `0`).  `reset` writes only zeros. -/
def BenignInput : DraftMut → Prop
  | .rateChange _ newRate => 0 ≤ jsOr0 (parseFloatJS newRate)
  | .prodChange _ _ _ value => 0 ≤ ((parseIntJS value).getD 0 : Int)
  | .reset _ => True

instance (m : DraftMut) : Decidable (BenignInput m) := by
  unfold BenignInput; cases m <;> infer_instance

/-- The quantity `handleProductionChange` looks up for a cell: the first
overlay entry matching the (employee, item, date) key, if any. -/
def cellQuantity (st : OverlayState) (employeeId itemId : String) (date : Nat) : Option Int :=
  ((values st.prod).find? (cellMatch employeeId itemId date)).map (·.quantity)

/-! ## Association-list lemmas -/

theorem mem_upsert {α : Type} (k : String) (v : α) :
    ∀ (l : List (String × α)) (x : String × α), x ∈ upsert l k v → x = (k, v) ∨ x ∈ l := by
  intro l
  induction l with
  | nil => intro x hx; simp [upsert] at hx; left; exact hx
  | cons p rest ih =>
      intro x hx
      unfold upsert at hx
      by_cases hk : p.1 = k
      · rw [if_pos hk] at hx
        rcases List.mem_cons.mp hx with h | h
        · left; exact h
        · right; exact List.mem_cons_of_mem _ h
      · rw [if_neg hk] at hx
        rcases List.mem_cons.mp hx with h | h
        · right; exact h ▸ List.mem_cons_self _ _
        · rcases ih x h with h2 | h2
          · left; exact h2
          · right; exact List.mem_cons_of_mem _ h2

theorem lookup_upsert {α : Type} (k : String) (v : α) :
    ∀ (l : List (String × α)), lookup (upsert l k v) k = some v := by
  intro l
  induction l with
  | nil => simp [upsert, lookup, List.find?]
  | cons p rest ih =>
      unfold upsert
      by_cases hk : p.1 = k
      · simp [hk, lookup, List.find?]
      · simp only [if_neg hk]
        simpa [lookup, List.find?_cons, hk] using ih

theorem find?_values_upsert_none {P : ProductionEntry → Bool} {v : ProductionEntry}
    (hPv : P v = true) :
    ∀ (l : List (String × ProductionEntry)) (k : String),
      (values l).find? P = none →
      (values (upsert l k v)).find? P = some v := by
  intro l
  induction l with
  | nil => intro k _; simp [upsert, values, List.find?, hPv]
  | cons p rest ih =>
      intro k h
      have hx : P p.2 = false := by
        cases hPx : P p.2 with
        | true => simp [values, List.find?_cons, hPx] at h
        | false => rfl
      have hrest : (values rest).find? P = none := by
        simpa [values, List.find?_cons, hx] using h
      unfold upsert
      by_cases hk : p.1 = k
      · simp [hk, values, List.find?_cons, hPv]
      · simp only [if_neg hk]
        simpa [values, List.find?_cons, hx] using ih k hrest

theorem find?_values_upsert_some {P : ProductionEntry → Bool} {v : ProductionEntry}
    (hPv : P v = true) :
    ∀ (l : List (String × ProductionEntry)),
      (∀ kv ∈ l, kv.1 = kv.2.id) →
      ∀ e, (values l).find? P = some e →
      (values (upsert l e.id v)).find? P = some v := by
  intro l
  induction l with
  | nil => intro _ e he; simp [values, List.find?] at he
  | cons p rest ih =>
      intro hkeys e he
      have hkeyhead : p.1 = p.2.id := hkeys p (List.mem_cons_self _ _)
      cases hPx : P p.2 with
      | true =>
          have : e = p.2 := by
            have := he
            simp [values, List.find?_cons, hPx] at this
            exact this.symm
          subst this
          unfold upsert
          simp [hkeyhead, values, List.find?_cons, hPv]
      | false =>
          have hrest : (values rest).find? P = some e := by
            simpa [values, List.find?_cons, hPx] using he
          unfold upsert
          by_cases hk : p.1 = e.id
          · simp [hk, values, List.find?_cons, hPv]
          · simp only [if_neg hk]
            have := ih (fun kv hkv => hkeys kv (List.mem_cons_of_mem _ hkv)) e hrest
            simpa [values, List.find?_cons, hPx] using this

/-! ## Non-negativity of the draft overlay (C3) -/

theorem nonneg_applyMut (ws : Nat) (emps : List Employee) (st : OverlayState)
    (m : DraftMut) (hb : BenignInput m) (hst : NonNegOverlay st) :
    NonNegOverlay (applyMut ws emps st m) := by
  cases m with
  | rateChange itemId newRate =>
      simp only [BenignInput] at hb
      unfold applyMut handleRateChange
      refine ⟨?_, ?_⟩
      · intro kv hkv
        rcases mem_upsert _ _ _ kv hkv with h | h
        · rw [h]; exact hb
        · exact hst.1 kv h
      · intro kv hkv
        exact hst.2 kv hkv
  | prodChange employeeId itemId dayIndex value =>
      simp only [BenignInput] at hb
      unfold applyMut handleProductionChange
      cases hfind : (values st.prod).find? (cellMatch employeeId itemId (ws + dayIndex)) with
      | some existingEntry =>
          simp only [hfind]
          refine ⟨fun kv hkv => hst.1 kv hkv, ?_⟩
          intro kv hkv
          rcases mem_upsert _ _ _ kv hkv with h | h
          · rw [h]
            by_cases hv : value == ""
            · simp [hv]
            · simp only [hv, if_false]
              exact hb
          · exact hst.2 kv h
      | none =>
          simp only [hfind]
          refine ⟨fun kv hkv => hst.1 kv hkv, ?_⟩
          intro kv hkv
          rcases mem_upsert _ _ _ kv hkv with h | h
          · rw [h]; exact hb
          · exact hst.2 kv h
  | reset teamId =>
      unfold applyMut resetProduction
      refine ⟨fun kv hkv => hst.1 kv hkv, ?_⟩
      intro kv hkv
      rcases List.mem_map.mp hkv with ⟨kv0, hkv0, heq⟩
      rw [← heq]
      split
      · simp
      · exact hst.2 kv0 hkv0

/-- C3 counterexample: the draft-overlay mutations do not clamp negative
numeric input.  Starting from the empty overlay, the single mutation
`handleProductionChange("e1", "i1", 0, "-1")` stores quantity `-1`, so the
claimed invariant "every rate and every quantity is non-negative after any
sequence of mutations, for every string input" is false. -/
theorem nonneg_overlay_counterexample :
    ¬ NonNegOverlay
      (([DraftMut.prodChange "e1" "i1" 0 "-1"]).foldl (applyMut 0 []) ⟨[], [], false⟩) := by
  decide

/-- C3 (amended): after any sequence of draft-overlay mutations
(`handleRateChange`, `handleProductionChange`, `resetProduction`) in which no
raw string input parses to a negative number, every rate in `localRates` and
every quantity in `localProduction` is non-negative, provided the starting
overlay was non-negative.  (Non-numeric and empty input still coerce to `0`;
the amendment only excludes inputs that themselves denote negative numbers,
which the code stores as given.) -/
theorem nonneg_overlay_of_benign (ws : Nat) (emps : List Employee)
    (muts : List DraftMut) (st : OverlayState)
    (hst : NonNegOverlay st) (hb : ∀ m ∈ muts, BenignInput m) :
    NonNegOverlay (muts.foldl (applyMut ws emps) st) := by
  induction muts generalizing st with
  | nil => exact hst
  | cons m rest ih =>
      exact ih _ (nonneg_applyMut ws emps st m (hb m (List.mem_cons_self _ _)) hst)
        (fun m' hm' => hb m' (List.mem_cons_of_mem _ hm'))

/-- Witness for `nonneg_overlay_of_benign` at a concrete mutation sequence. -/
theorem nonneg_overlay_of_benign_witness :
    (NonNegOverlay ⟨[], [], false⟩
      ∧ ∀ m ∈ [DraftMut.rateChange "i1" "abc",
               DraftMut.prodChange "e1" "i1" 2 "12",
               DraftMut.reset "t1"], BenignInput m)
    ∧ NonNegOverlay
        (([DraftMut.rateChange "i1" "abc",
           DraftMut.prodChange "e1" "i1" 2 "12",
           DraftMut.reset "t1"]).foldl (applyMut 5 []) ⟨[], [], false⟩) :=
  ⟨⟨by decide, by decide⟩,
    nonneg_overlay_of_benign 5 [] _ ⟨[], [], false⟩ (by decide) (by decide)⟩

/-! ## Input coercion into the targeted overlay cell (C4) -/

theorem cellQuantity_handleProductionChange (ws : Nat) (st : OverlayState)
    (employeeId itemId : String) (dayIndex : Nat) (value : String)
    (hkeys : ∀ kv ∈ st.prod, kv.1 = kv.2.id) :
    cellQuantity (handleProductionChange ws st employeeId itemId dayIndex value)
        employeeId itemId (ws + dayIndex)
      = some (if value == "" then 0 else (parseIntJS value).getD 0) := by
  unfold handleProductionChange cellQuantity
  cases hfind : (values st.prod).find? (cellMatch employeeId itemId (ws + dayIndex)) with
  | some existingEntry =>
      simp only [hfind]
      have hPe : cellMatch employeeId itemId (ws + dayIndex) existingEntry = true :=
        List.find?_some hfind
      have hPv : cellMatch employeeId itemId (ws + dayIndex)
          { existingEntry with quantity := if value == "" then 0 else (parseIntJS value).getD 0 }
            = true := by
        simpa [cellMatch] using hPe
      have hres := find?_values_upsert_some hPv st.prod hkeys existingEntry hfind
      rw [hres]
      rfl
  | none =>
      simp only [hfind]
      have hPv : cellMatch employeeId itemId (ws + dayIndex)
          ⟨tempKey employeeId itemId (ws + dayIndex), employeeId, itemId, ws + dayIndex,
            (parseIntJS value).getD 0⟩ = true := by
        simp [cellMatch]
      have hres := find?_values_upsert_none hPv st.prod
        (tempKey employeeId itemId (ws + dayIndex)) hfind
      rw [hres]
      cases hv : (value == "") with
      | true =>
          have hve : value = "" := by simpa using hv
          subst hve
          rfl
      | false => simp [hv]

theorem dirty_handleProductionChange (ws : Nat) (st : OverlayState)
    (employeeId itemId : String) (dayIndex : Nat) (value : String) :
    (handleProductionChange ws st employeeId itemId dayIndex value).dirty = true := by
  unfold handleProductionChange
  cases hfind : (values st.prod).find? (cellMatch employeeId itemId (ws + dayIndex)) with
  | some existingEntry => simp [hfind]
  | none => simp [hfind]

/-- C4: coercion of raw user input into the draft overlay.
`handleRateChange(itemId, "")` and `handleRateChange(itemId, "abc")` both
store rate `0` for `itemId`; `handleProductionChange` with raw value `""`
stores quantity `0` and with `"12"` stores quantity `12` for the targeted
(employee, item, weekday) cell; each mutation is total (cannot fail) and sets
the dirty flag.  The hypothesis is the record-key invariant maintained by
every writer of `localProduction` (each entry is stored under its own id). -/
theorem coercion_stores_zero_or_value (ws : Nat) (st : OverlayState)
    (itemId employeeId : String) (dayIndex : Nat)
    (hkeys : ∀ kv ∈ st.prod, kv.1 = kv.2.id) :
    lookup (handleRateChange st itemId "").rates itemId = some 0
    ∧ (handleRateChange st itemId "").dirty = true
    ∧ lookup (handleRateChange st itemId "abc").rates itemId = some 0
    ∧ (handleRateChange st itemId "abc").dirty = true
    ∧ cellQuantity (handleProductionChange ws st employeeId itemId dayIndex "")
        employeeId itemId (ws + dayIndex) = some 0
    ∧ (handleProductionChange ws st employeeId itemId dayIndex "").dirty = true
    ∧ cellQuantity (handleProductionChange ws st employeeId itemId dayIndex "12")
        employeeId itemId (ws + dayIndex) = some 12
    ∧ (handleProductionChange ws st employeeId itemId dayIndex "12").dirty = true := by
  refine ⟨?_, rfl, ?_, rfl, ?_, dirty_handleProductionChange .., ?_,
    dirty_handleProductionChange ..⟩
  · have h := lookup_upsert itemId (jsOr0 (parseFloatJS "")) st.rates
    have hval : jsOr0 (parseFloatJS "") = 0 := rfl
    rw [hval] at h
    exact h
  · have h := lookup_upsert itemId (jsOr0 (parseFloatJS "abc")) st.rates
    have hval : jsOr0 (parseFloatJS "abc") = 0 := rfl
    rw [hval] at h
    exact h
  · have h := cellQuantity_handleProductionChange ws st employeeId itemId dayIndex "" hkeys
    simpa using h
  · have h := cellQuantity_handleProductionChange ws st employeeId itemId dayIndex "12" hkeys
    have : (if ("12" == "") = true then (0 : Int) else (parseIntJS "12").getD 0) = 12 := by decide
    rw [this] at h
    exact h

/-- Witness for `coercion_stores_zero_or_value` at the empty overlay. -/
theorem coercion_stores_zero_or_value_witness :
    (∀ kv ∈ (⟨[], [], false⟩ : OverlayState).prod, kv.1 = kv.2.id)
    ∧ (lookup (handleRateChange ⟨[], [], false⟩ "i1" "").rates "i1" = some 0
       ∧ (handleRateChange ⟨[], [], false⟩ "i1" "").dirty = true
       ∧ lookup (handleRateChange ⟨[], [], false⟩ "i1" "abc").rates "i1" = some 0
       ∧ (handleRateChange ⟨[], [], false⟩ "i1" "abc").dirty = true
       ∧ cellQuantity (handleProductionChange 5 ⟨[], [], false⟩ "e1" "i1" 2 "")
           "e1" "i1" (5 + 2) = some 0
       ∧ (handleProductionChange 5 ⟨[], [], false⟩ "e1" "i1" 2 "").dirty = true
       ∧ cellQuantity (handleProductionChange 5 ⟨[], [], false⟩ "e1" "i1" 2 "12")
           "e1" "i1" (5 + 2) = some 12
       ∧ (handleProductionChange 5 ⟨[], [], false⟩ "e1" "i1" 2 "12").dirty = true) :=
  ⟨by simp, coercion_stores_zero_or_value 5 ⟨[], [], false⟩ "i1" "e1" 2 (by simp)⟩

/-! ## Batch Commit Reconciler (`saveAllChanges`)

The diff computation of `saveAllChanges` is a pure function of the Aggregate
Store (`items`, `employees`, `production`) and the Draft Overlay
(`localRates`, `localProduction`).  Each operation added to the Firestore
write batch is reified as a `WriteOp`; for a created entry the document id is
generated randomly by the store (`doc(collection(...))`), so the reified
create carries the collection path (team and employee ids) and the written
data, not an id. -/

/-- Data of a created production entry: `Omit<ProductionEntry, 'id'>`. -/
structure EntryData where
  employeeId : String
  productionItemId : String
  date : Nat
  quantity : Int
deriving DecidableEq, Repr

inductive WriteOp where
  /-- `batch.update(teams/{teamId}/productionItems/{itemId}, { payRate })` -/
  | updateRate (teamId itemId : String) (payRate : Rat)
  /-- `batch.update(teams/{teamId}/employees/{employeeId}/dailyProduction/{entryId}, { quantity })` -/
  | updateQuantity (teamId employeeId entryId : String) (quantity : Int)
  /-- `batch.set(doc(collection(teams/{teamId}/employees/{employeeId}/dailyProduction)), data)` -/
  | createEntry (teamId employeeId : String) (data : EntryData)
deriving DecidableEq, Repr

/-- The rate-update loop body of `saveAllChanges`: an update op for an
overlay rate whose item exists and whose stored `payRate` differs. -/
def rateOp (items : List ProductionItem) (kv : String × Rat) : Option WriteOp :=
  match items.find? (fun i => i.id == kv.1) with
  | some originalItem =>
      if originalItem.payRate ≠ kv.2 then
        some (.updateRate originalItem.teamId kv.1 kv.2)
      else none
  | none => none

/-- The production loop body of `saveAllChanges`: skip entries whose employee
is not in the Aggregate Store; update when a store entry with the same id has
a different quantity; create when there is no store entry with that id and
the quantity is positive. -/
def entryOp (production : List ProductionEntry) (employees : List Employee)
    (entry : ProductionEntry) : Option WriteOp :=
  match employees.find? (fun e => e.id == entry.employeeId) with
  | none => none
  | some employee =>
      match production.find? (fun p => p.id == entry.id) with
      | some originalEntry =>
          if originalEntry.quantity ≠ entry.quantity then
            some (.updateQuantity employee.teamId entry.employeeId entry.id entry.quantity)
          else none
      | none =>
          if 0 < entry.quantity then
            some (.createEntry employee.teamId entry.employeeId
              ⟨entry.employeeId, entry.productionItemId, entry.date, entry.quantity⟩)
          else none

/-- The full batch assembled by `saveAllChanges` before `commit()`:
rate updates over `Object.entries(localRates)` in order, then production
updates/creates over `Object.values(localProduction)` in order. -/
def saveBatch (items : List ProductionItem) (employees : List Employee)
    (production : List ProductionEntry)
    (localRates : List (String × Rat))
    (localProduction : List (String × ProductionEntry)) : List WriteOp :=
  localRates.filterMap (rateOp items)
    ++ (values localProduction).filterMap (entryOp production employees)

/-- The provider state that `saveAllChanges` reads and writes. -/
structure ProviderState where
  items : List ProductionItem
  employees : List Employee
  production : List ProductionEntry
  localRates : List (String × Rat)
  localProduction : List (String × ProductionEntry)
  hasChanges : Bool
deriving DecidableEq, Repr

/-- A structured `FirestorePermissionError` event on the global
`errorEmitter` channel. -/
structure PermError where
  operation : String
  path : String
deriving DecidableEq, Repr

/-- Observable result of one `saveAllChanges()` call. -/
structure SaveResult where
  batch : List WriteOp
  emitted : List PermError
  rethrown : Bool
  commitCalls : Nat
deriving DecidableEq, Repr

/-- `saveAllChanges()`: build the batch, commit it once; on success clear the
dirty flag, on failure leave all state untouched, emit the structured
`{ operation: 'write', path: 'batch update' }` error and re-throw. -/
def saveAllChanges (s : ProviderState) (commitOk : Bool) : ProviderState × SaveResult :=
  let batch := saveBatch s.items s.employees s.production s.localRates s.localProduction
  if commitOk then
    ({ s with hasChanges := false },
     { batch := batch, emitted := [], rethrown := false, commitCalls := 1 })
  else
    (s, { batch := batch, emitted := [⟨"write", "batch update"⟩],
          rethrown := true, commitCalls := 1 })

/-- Two consecutive `saveAllChanges()` calls, the first committing
successfully, with no overlay edit and no Aggregate Store change in between:
the second call runs on exactly the state the first call left behind. -/
def twoSaves (s : ProviderState) : SaveResult × SaveResult :=
  let first := saveAllChanges s true
  let second := saveAllChanges first.1 true
  (first.2, second.2)

/-! ## Saving twice in a row (C1) -/

/-- A provider state with one edited rate: the overlay holds `15` for item
`i1` while the Aggregate Store still holds `13` (no snapshot has arrived). -/
def oneEditedRate : ProviderState :=
  { items := [⟨"i1", "Blanca", 13, "t1"⟩]
    employees := []
    production := []
    localRates := [("i1", 15)]
    localProduction := []
    hasChanges := true }

/-- C1 counterexample: calling `saveAllChanges()` twice in a row, the first
call committing successfully, with no intervening overlay edit and no
intervening Aggregate Store change, does NOT produce an empty batch the
second time: the diff is recomputed against the same unchanged baseline, so
the second batch repeats the first (here, one rate update). -/
theorem second_save_not_empty_counterexample :
    (twoSaves oneEditedRate).1.batch ≠ [] ∧ (twoSaves oneEditedRate).2.batch ≠ [] := by
  decide

/-- C1 (amended): with no intervening edits and no intervening Aggregate
Store change, a second `saveAllChanges()` after a successful first call
produces exactly the same batch as the first call (the successful commit
only clears the dirty flag; the diff inputs are unchanged).  In particular
the second batch is empty if and only if the first one already was — the
batch only becomes empty after the Aggregate Store's subscriptions deliver
the committed data and the overlay re-baselines. -/
theorem second_save_repeats_first (s : ProviderState) :
    (twoSaves s).2.batch = (twoSaves s).1.batch
    ∧ ((twoSaves s).2.batch = [] ↔ (twoSaves s).1.batch = []) :=
  ⟨rfl, Iff.rfl⟩

/-! ## Commit success and failure (C7) -/

/-- C7: when the batch commit inside `saveAllChanges()` succeeds the dirty
flag is cleared and nothing is emitted or re-thrown; when it fails the
entire provider state (dirty flag and draft overlay included) is left
unchanged, the structured `{ operation: 'write', path: 'batch update' }`
permission error is emitted on the global error channel, and the error is
re-thrown to the caller; in both cases the commit is attempted exactly once
(no automatic retry). -/
theorem save_commit_outcome (s : ProviderState) :
    (saveAllChanges s true).1.hasChanges = false
    ∧ (saveAllChanges s true).2.emitted = []
    ∧ (saveAllChanges s true).2.rethrown = false
    ∧ (saveAllChanges s false).1 = s
    ∧ (saveAllChanges s false).2.emitted = [⟨"write", "batch update"⟩]
    ∧ (saveAllChanges s false).2.rethrown = true
    ∧ (saveAllChanges s true).2.commitCalls = 1
    ∧ (saveAllChanges s false).2.commitCalls = 1 :=
  ⟨rfl, rfl, rfl, rfl, rfl, rfl, rfl, rfl⟩

/-! ## Entries of unknown employees are silently skipped (C10) -/

theorem filterMap_eq_filterMap_filter {α β : Type} (f : α → Option β) (q : α → Bool) :
    ∀ l : List α, (∀ x ∈ l, q x = false → f x = none) →
      l.filterMap f = (l.filter q).filterMap f := by
  intro l
  induction l with
  | nil => intro _; rfl
  | cons x rest ih =>
      intro h
      cases hq : q x with
      | true =>
          rw [List.filter_cons_of_pos hq, List.filterMap_cons, List.filterMap_cons]
          cases hf : f x with
          | none => exact ih fun y hy => h y (List.mem_cons_of_mem _ hy)
          | some b => rw [ih fun y hy => h y (List.mem_cons_of_mem _ hy)]
      | false =>
          rw [List.filter_cons_of_neg (by simp [hq]), List.filterMap_cons,
            h x (List.mem_cons_self _ _) hq]
          exact ih fun y hy => h y (List.mem_cons_of_mem _ hy)

/-- C10: an overlay production entry whose `employeeId` matches no employee
in the Aggregate Store contributes no write operation to the batch and
raises no error: the loop body returns before either the update or the
create branch, and the whole batch is the same as if every entry with that
`employeeId` were absent from the overlay. -/
theorem unknown_employee_entry_skipped (items : List ProductionItem)
    (employees : List Employee) (production : List ProductionEntry)
    (localRates : List (String × Rat)) (localProduction : List (String × ProductionEntry))
    (e : ProductionEntry)
    (h : employees.find? (fun x => x.id == e.employeeId) = none) :
    entryOp production employees e = none
    ∧ saveBatch items employees production localRates localProduction
        = saveBatch items employees production localRates
            (localProduction.filter (fun kv => !(kv.2.employeeId == e.employeeId))) := by
  constructor
  · unfold entryOp
    rw [h]
  · unfold saveBatch
    congr 1
    have hvals : values (localProduction.filter (fun kv => !(kv.2.employeeId == e.employeeId)))
        = (values localProduction).filter (fun p => !(p.employeeId == e.employeeId)) := by
      unfold values
      rw [List.filter_map]
      rfl
    rw [hvals]
    apply filterMap_eq_filterMap_filter
    intro x _ hx
    have hxe : x.employeeId = e.employeeId := by
      have : (x.employeeId == e.employeeId) = true := by
        cases hb : (x.employeeId == e.employeeId) with
        | true => rfl
        | false => rw [hb] at hx; simp at hx
      simpa using this
    unfold entryOp
    rw [hxe, h]

/-- Witness for `unknown_employee_entry_skipped`: an overlay entry with a
non-zero quantity whose employee is absent from the Aggregate Store. -/
theorem unknown_employee_entry_skipped_witness :
    (([] : List Employee).find?
        (fun x => x.id == (⟨"p1", "ghost", "i1", 3, 7⟩ : ProductionEntry).employeeId) = none)
    ∧ (entryOp [] [] ⟨"p1", "ghost", "i1", 3, 7⟩ = none
       ∧ saveBatch [] [] [] [] [("p1", ⟨"p1", "ghost", "i1", 3, 7⟩)]
           = saveBatch [] [] [] []
               (([("p1", ⟨"p1", "ghost", "i1", 3, 7⟩)] :
                  List (String × ProductionEntry)).filter
                 (fun kv => !(kv.2.employeeId
                    == (⟨"p1", "ghost", "i1", 3, 7⟩ : ProductionEntry).employeeId)))) :=
  ⟨rfl, unknown_employee_entry_skipped [] [] [] [] _ _ rfl⟩

/-! ## Create operations for placeholder entries (C2) -/

/-- The create operation `saveAllChanges` emits for a new overlay entry: a
`batch.set` of the entry's data (id stripped) under the found employee's
team path. -/
def createOp (teamId : String) (e : ProductionEntry) : WriteOp :=
  .createEntry teamId e.employeeId ⟨e.employeeId, e.productionItemId, e.date, e.quantity⟩

/-- Any create operation produced by the production loop body carries the
quantity of the overlay entry that produced it, and that quantity is
strictly positive. -/
theorem entryOp_create_quantity (production : List ProductionEntry)
    (employees : List Employee) (x : ProductionEntry) (t eid : String) (d : EntryData)
    (h : entryOp production employees x = some (.createEntry t eid d)) :
    d.quantity = x.quantity ∧ 0 < x.quantity := by
  unfold entryOp at h
  cases hf : employees.find? (fun e => e.id == x.employeeId) with
  | none => rw [hf] at h; exact absurd h (by simp)
  | some emp =>
      rw [hf] at h
      dsimp only at h
      cases hp : production.find? (fun p => p.id == x.id) with
      | some o =>
          rw [hp] at h
          dsimp only at h
          by_cases hq : o.quantity ≠ x.quantity
          · rw [if_pos hq] at h
            exact absurd (Option.some.inj h) (by simp)
          · rw [if_neg hq] at h
            exact absurd h (by simp)
      | none =>
          rw [hp] at h
          dsimp only at h
          by_cases hq : 0 < x.quantity
          · rw [if_pos hq] at h
            have := Option.some.inj h
            cases this
            exact ⟨rfl, hq⟩
          · rw [if_neg hq] at h
            exact absurd h (by simp)

/-- Every operation in the rate-update part of the batch is a rate update. -/
theorem rateOps_are_updates (items : List ProductionItem)
    (localRates : List (String × Rat)) (op : WriteOp)
    (h : op ∈ localRates.filterMap (rateOp items)) :
    ∃ t i r, op = .updateRate t i r := by
  rcases List.mem_filterMap.mp h with ⟨kv, _, hop⟩
  unfold rateOp at hop
  cases hf : items.find? (fun i => i.id == kv.1) with
  | none => rw [hf] at hop; exact absurd hop (by simp)
  | some originalItem =>
      rw [hf] at hop
      dsimp only at hop
      by_cases hne : originalItem.payRate ≠ kv.2
      · rw [if_pos hne] at hop
        exact ⟨originalItem.teamId, kv.1, kv.2, (Option.some.inj hop).symm⟩
      · rw [if_neg hne] at hop
        exact absurd hop (by simp)

/-- C2 counterexample: a placeholder entry with quantity `-1` (reachable by
typing `-1` into an empty cell) has a non-zero quantity and a matching
Aggregate Store employee, yet `saveAllChanges()` emits no create operation
for it — the code's condition is `quantity > 0`, not `quantity ≠ 0`. -/
theorem create_iff_nonzero_counterexample :
    ¬ ((createOp "t1" ⟨"new-e1-i1-0", "e1", "i1", 0, -1⟩
          ∈ saveBatch [] [⟨"e1", "Maria", "t1"⟩] [] []
              [("new-e1-i1-0", ⟨"new-e1-i1-0", "e1", "i1", 0, -1⟩)])
        ↔ (⟨"new-e1-i1-0", "e1", "i1", 0, -1⟩ : ProductionEntry).quantity ≠ 0) := by
  decide

/-- C2 (amended): for an overlay production entry whose id matches no entry
in the Aggregate Store's production collection and whose `employeeId`
resolves to an Aggregate Store employee, `saveAllChanges()` includes a
create operation for that entry in the batch if and only if its quantity is
strictly positive.  In particular a zero-quantity placeholder entry never
produces a create operation. -/
theorem create_iff_positive_quantity (items : List ProductionItem)
    (employees : List Employee) (production : List ProductionEntry)
    (localRates : List (String × Rat)) (localProduction : List (String × ProductionEntry))
    (e : ProductionEntry) (emp : Employee)
    (hmem : e ∈ values localProduction)
    (hemp : employees.find? (fun x => x.id == e.employeeId) = some emp)
    (hnew : production.find? (fun p => p.id == e.id) = none) :
    (createOp emp.teamId e
        ∈ saveBatch items employees production localRates localProduction)
      ↔ 0 < e.quantity := by
  unfold saveBatch
  rw [List.mem_append]
  constructor
  · intro h
    rcases h with h | h
    · rcases rateOps_are_updates items localRates _ h with ⟨t, i, r, heq⟩
      exact absurd heq (by simp [createOp])
    · rcases List.mem_filterMap.mp h with ⟨x, _, hop⟩
      have := entryOp_create_quantity production employees x emp.teamId e.employeeId
        ⟨e.employeeId, e.productionItemId, e.date, e.quantity⟩ hop
      have hq : e.quantity = x.quantity := this.1
      rw [hq]
      exact this.2
  · intro hq
    right
    refine List.mem_filterMap.mpr ⟨e, hmem, ?_⟩
    unfold entryOp
    rw [hemp, hnew]
    dsimp only
    rw [if_pos hq]
    rfl

/-- Witness for `create_iff_positive_quantity`: a new entry with quantity 3
produces a create operation. -/
theorem create_iff_positive_quantity_witness :
    ((⟨"new-e1-i1-0", "e1", "i1", 0, 3⟩ : ProductionEntry)
        ∈ values [("new-e1-i1-0", (⟨"new-e1-i1-0", "e1", "i1", 0, 3⟩ : ProductionEntry))]
      ∧ ([⟨"e1", "Maria", "t1"⟩] : List Employee).find?
          (fun x => x.id == (⟨"new-e1-i1-0", "e1", "i1", 0, 3⟩ : ProductionEntry).employeeId)
            = some ⟨"e1", "Maria", "t1"⟩
      ∧ ([] : List ProductionEntry).find?
          (fun p => p.id == (⟨"new-e1-i1-0", "e1", "i1", 0, 3⟩ : ProductionEntry).id) = none)
    ∧ ((createOp (Employee.teamId ⟨"e1", "Maria", "t1"⟩) ⟨"new-e1-i1-0", "e1", "i1", 0, 3⟩
          ∈ saveBatch [] [⟨"e1", "Maria", "t1"⟩] [] []
              [("new-e1-i1-0", ⟨"new-e1-i1-0", "e1", "i1", 0, 3⟩)])
        ↔ 0 < (⟨"new-e1-i1-0", "e1", "i1", 0, 3⟩ : ProductionEntry).quantity) :=
  ⟨⟨by decide, by decide, by decide⟩,
    create_iff_positive_quantity [] [⟨"e1", "Maria", "t1"⟩] [] []
      [("new-e1-i1-0", ⟨"new-e1-i1-0", "e1", "i1", 0, 3⟩)]
      ⟨"new-e1-i1-0", "e1", "i1", 0, 3⟩ ⟨"e1", "Maria", "t1"⟩
      (by decide) (by decide) (by decide)⟩

/-! ## Provisioning of initial production entries (C5)

`addEmployee` inserts the employee document (`addDoc`, id assigned by the
store) and then awaits `createInitialProductionEntries`, which builds one
atomic batch of zero-quantity entries — one `batch.set` per (team item ×
weekday), weekdays being the six days `weekStart .. weekStart + 5`
(`eachDayOfInterval` over Monday .. Monday+5). -/

/-- The Monday-to-Saturday window: `eachDayOfInterval({start, start+5})`. -/
def weekDays (weekStart : Nat) : List Nat :=
  (List.range 6).map (fun i => weekStart + i)

/-- `createInitialProductionEntries(employeeId, teamId, teamItems)`: early
return with no batch when the team has no items; otherwise one zero-quantity
entry per (item, weekday), written at
`teams/{teamId}/employees/{employeeId}/dailyProduction`. -/
def createInitialProductionEntries (employeeId : String)
    (teamItems : List ProductionItem) (weekStart : Nat) : List EntryData :=
  if teamItems.isEmpty then []
  else
    teamItems.flatMap (fun item =>
      (weekDays weekStart).map (fun date => ⟨employeeId, item.id, date, 0⟩))

/-- `addEmployee(employee)`: the inserted employee document (with the
store-assigned id `newId`) and the provisioning batch for the team's items
(`items.filter(i => i.teamId === employee.teamId)`). -/
def addEmployee (name teamId newId : String) (items : List ProductionItem)
    (weekStart : Nat) : Employee × List EntryData :=
  (⟨newId, name, teamId⟩,
   createInitialProductionEntries newId (items.filter (fun i => i.teamId == teamId)) weekStart)

theorem countP_flatMap {α β : Type} (p : β → Bool) (f : α → List β) :
    ∀ l : List α, (l.flatMap f).countP p = (l.map (fun a => (f a).countP p)).sum := by
  intro l
  induction l with
  | nil => rfl
  | cons x rest ih =>
      rw [List.flatMap_cons, List.countP_append, List.map_cons, List.sum_cons, ih]

theorem weekDays_countP (ws i : Nat) (hi : i < 6) :
    (weekDays ws).countP (fun d => d == ws + i) = 1 := by
  unfold weekDays
  rw [List.countP_map]
  have hcongr : (List.range 6).countP ((fun d => d == ws + i) ∘ (fun j => ws + j))
      = (List.range 6).countP (fun j => j == i) := by
    apply List.countP_congr
    intro j _
    simp [Nat.add_left_cancel_iff]
  rw [hcongr, ← List.count_eq_countP]
  exact List.count_eq_one_of_mem (List.nodup_range 6) (List.mem_range.mpr hi)

theorem sum_map_single_key {α : Type} (key : α → String) :
    ∀ (l : List α), (l.map key).Nodup →
      ∀ a ∈ l, ∀ (g : α → Nat), (∀ b ∈ l, g b = if key b = key a then 1 else 0) →
      (l.map g).sum = 1 := by
  intro l
  induction l with
  | nil => intro _ a ha; exact absurd ha (List.not_mem_nil a)
  | cons x rest ih =>
      intro hnd a ha g hg
      have hxnot : key x ∉ rest.map key := by
        have := hnd
        rw [List.map_cons, List.nodup_cons] at this
        exact this.1
      rcases List.mem_cons.mp ha with hax | hat
      · subst hax
        have hgx : g a = 1 := by rw [hg a (List.mem_cons_self _ _)]; simp
        have hrest : (rest.map g).sum = 0 := by
          apply List.sum_eq_zero
          intro y hy
          rcases List.mem_map.mp hy with ⟨b, hb, rfl⟩
          rw [hg b (List.mem_cons_of_mem _ hb)]
          have : key b ≠ key a := by
            intro hk
            exact hxnot (hk ▸ List.mem_map_of_mem key hb)
          simp [this]
        rw [List.map_cons, List.sum_cons, hgx, hrest]
      · have hgx : g x = 0 := by
          rw [hg x (List.mem_cons_self _ _)]
          have : key x ≠ key a := by
            intro hk
            exact hxnot (hk ▸ List.mem_map_of_mem key hat)
          simp [this]
        have hrest : (rest.map g).sum = 1 := by
          apply ih (by rw [List.map_cons, List.nodup_cons] at hnd; exact hnd.2) a hat g
          intro b hb
          exact hg b (List.mem_cons_of_mem _ hb)
        rw [List.map_cons, List.sum_cons, hgx, hrest]

/-- C5: `addEmployee` inserts the employee document and provisions, in one
atomic batch, exactly one zero-quantity production entry per (team item ×
weekday) over the 6 weekdays Monday through Saturday — `6 × |team items|`
entries in total, each carrying the new employee's id; when the team has
zero items no entries are created (and the early return raises no error).
The hypothesis is uniqueness of item ids within the team, guaranteed by the
store (document ids are unique within a collection). -/
theorem addEmployee_provisions_week (items : List ProductionItem) (ws : Nat)
    (name teamId newId : String)
    (hnodup : ((items.filter (fun i => i.teamId == teamId)).map (·.id)).Nodup) :
    ((addEmployee name teamId newId items ws).2).length
        = 6 * (items.filter (fun i => i.teamId == teamId)).length
    ∧ (∀ b ∈ (addEmployee name teamId newId items ws).2,
         b.quantity = 0 ∧ b.employeeId = newId
         ∧ (∃ item ∈ items.filter (fun i => i.teamId == teamId),
              b.productionItemId = item.id)
         ∧ (∃ i, i < 6 ∧ b.date = ws + i))
    ∧ (∀ item ∈ items.filter (fun i => i.teamId == teamId), ∀ i, i < 6 →
         ((addEmployee name teamId newId items ws).2).countP
             (fun b => b.productionItemId == item.id && b.date == ws + i) = 1)
    ∧ (items.filter (fun i => i.teamId == teamId) = []
        → (addEmployee name teamId newId items ws).2 = []) := by
  have hB : (addEmployee name teamId newId items ws).2
      = createInitialProductionEntries newId (items.filter (fun i => i.teamId == teamId)) ws :=
    rfl
  by_cases hempty : (items.filter (fun i => i.teamId == teamId)).isEmpty
  · have hnil : items.filter (fun i => i.teamId == teamId) = [] :=
      List.isEmpty_iff.mp hempty
    have hBnil : (addEmployee name teamId newId items ws).2 = [] := by
      rw [hB]
      unfold createInitialProductionEntries
      rw [if_pos hempty]
    refine ⟨?_, ?_, ?_, fun _ => hBnil⟩
    · rw [hBnil, hnil]
      rfl
    · intro b hb
      rw [hBnil] at hb
      exact absurd hb (List.not_mem_nil b)
    · intro item hitem
      rw [hnil] at hitem
      exact absurd hitem (List.not_mem_nil item)
  · have hBdef : (addEmployee name teamId newId items ws).2
        = (items.filter (fun i => i.teamId == teamId)).flatMap (fun item =>
            (weekDays ws).map (fun date => ⟨newId, item.id, date, 0⟩)) := by
      rw [hB]
      unfold createInitialProductionEntries
      rw [if_neg hempty]
    refine ⟨?_, ?_, ?_, ?_⟩
    · rw [hBdef, List.length_flatMap]
      have hmap : List.map (List.length ∘ fun item =>
          (weekDays ws).map (fun date => (⟨newId, item.id, date, 0⟩ : EntryData)))
            (items.filter (fun i => i.teamId == teamId))
          = List.replicate (items.filter (fun i => i.teamId == teamId)).length 6 := by
        rw [← List.map_const']
        apply List.map_congr_left
        intro a _
        simp [weekDays]
      rw [hmap, List.sum_replicate, smul_eq_mul, Nat.mul_comm]
    · intro b hb
      rw [hBdef] at hb
      rcases List.mem_flatMap.mp hb with ⟨item, hitem, hbm⟩
      rcases List.mem_map.mp hbm with ⟨d, hd, rfl⟩
      unfold weekDays at hd
      rcases List.mem_map.mp hd with ⟨i, hi, rfl⟩
      exact ⟨rfl, rfl, ⟨item, hitem, rfl⟩, i, List.mem_range.mp hi, rfl⟩
    · intro item hitem i hi
      rw [hBdef, countP_flatMap]
      apply sum_map_single_key (fun it => it.id) _ hnodup item hitem
      intro b hb
      rw [List.countP_map]
      by_cases hid : b.id = item.id
      · rw [if_pos hid]
        have hcongr : (weekDays ws).countP
            ((fun bb : EntryData => bb.productionItemId == item.id && bb.date == ws + i) ∘
              (fun date => ⟨newId, b.id, date, 0⟩))
            = (weekDays ws).countP (fun d => d == ws + i) := by
          apply List.countP_congr
          intro d _
          simp [Function.comp, hid]
        rw [hcongr, weekDays_countP ws i hi]
      · rw [if_neg hid]
        apply List.countP_eq_zero.mpr
        intro d _
        simp [Function.comp, hid]
    · intro h
      exact absurd (List.isEmpty_iff.mpr h) hempty

/-- Witness for `addEmployee_provisions_week`: a team with two items gets
12 zero-quantity entries; a filter selecting no items yields none. -/
theorem addEmployee_provisions_week_witness :
    ((([⟨"i1", "Blanca", 13, "t1"⟩, ⟨"i2", "Capote", 8, "t1"⟩,
        ⟨"i3", "Chico", 10, "t2"⟩] : List ProductionItem).filter
          (fun i => i.teamId == "t1")).map (·.id)).Nodup
    ∧ (((addEmployee "Maria" "t1" "e9"
          [⟨"i1", "Blanca", 13, "t1"⟩, ⟨"i2", "Capote", 8, "t1"⟩,
           ⟨"i3", "Chico", 10, "t2"⟩] 100).2).length
        = 6 * (([⟨"i1", "Blanca", 13, "t1"⟩, ⟨"i2", "Capote", 8, "t1"⟩,
                 ⟨"i3", "Chico", 10, "t2"⟩] : List ProductionItem).filter
                  (fun i => i.teamId == "t1")).length
       ∧ (∀ b ∈ (addEmployee "Maria" "t1" "e9"
            [⟨"i1", "Blanca", 13, "t1"⟩, ⟨"i2", "Capote", 8, "t1"⟩,
             ⟨"i3", "Chico", 10, "t2"⟩] 100).2,
           b.quantity = 0 ∧ b.employeeId = "e9"
           ∧ (∃ item ∈ ([⟨"i1", "Blanca", 13, "t1"⟩, ⟨"i2", "Capote", 8, "t1"⟩,
                ⟨"i3", "Chico", 10, "t2"⟩] : List ProductionItem).filter
                  (fun i => i.teamId == "t1"),
                b.productionItemId = item.id)
           ∧ (∃ i, i < 6 ∧ b.date = 100 + i))
       ∧ (∀ item ∈ ([⟨"i1", "Blanca", 13, "t1"⟩, ⟨"i2", "Capote", 8, "t1"⟩,
             ⟨"i3", "Chico", 10, "t2"⟩] : List ProductionItem).filter
               (fun i => i.teamId == "t1"), ∀ i, i < 6 →
           ((addEmployee "Maria" "t1" "e9"
               [⟨"i1", "Blanca", 13, "t1"⟩, ⟨"i2", "Capote", 8, "t1"⟩,
                ⟨"i3", "Chico", 10, "t2"⟩] 100).2).countP
               (fun b => b.productionItemId == item.id && b.date == 100 + i) = 1)
       ∧ (([⟨"i1", "Blanca", 13, "t1"⟩, ⟨"i2", "Capote", 8, "t1"⟩,
            ⟨"i3", "Chico", 10, "t2"⟩] : List ProductionItem).filter
             (fun i => i.teamId == "t1") = []
           → (addEmployee "Maria" "t1" "e9"
               [⟨"i1", "Blanca", 13, "t1"⟩, ⟨"i2", "Capote", 8, "t1"⟩,
                ⟨"i3", "Chico", 10, "t2"⟩] 100).2 = [])) :=
  ⟨by decide,
    addEmployee_provisions_week
      [⟨"i1", "Blanca", 13, "t1"⟩, ⟨"i2", "Capote", 8, "t1"⟩,
       ⟨"i3", "Chico", 10, "t2"⟩] 100 "Maria" "t1" "e9" (by decide)⟩

/-! ## Aggregate Store merge (`Array.from(new Map(list.map(x => [x.id, x])).values())`)

A JS `Map` built from `[key, value]` pairs keeps the first-insertion position
of each key and the last value written to it; `.values()` iterates in key
order.  `dedupByKey` reproduces this with the `upsert` association list. -/

def dedupByKey {α : Type} (key : α → String) (l : List α) : List α :=
  (l.foldl (fun acc x => upsert acc (key x) x) []).map (·.2)

theorem upsert_append_of_not_mem {α : Type} (k : String) (v : α) :
    ∀ l : List (String × α), k ∉ l.map (·.1) → upsert l k v = l ++ [(k, v)] := by
  intro l
  induction l with
  | nil => intro _; rfl
  | cons p rest ih =>
      intro hk
      have hp : p.1 ≠ k := by
        intro he
        exact hk (he ▸ List.mem_map_of_mem (fun q : String × α => q.1) (List.mem_cons_self p rest))
      unfold upsert
      rw [if_neg hp, ih (fun hm => hk (List.mem_cons_of_mem _ hm)), List.cons_append]

theorem foldl_upsert_of_nodup {α : Type} (key : α → String) :
    ∀ (l : List α) (acc : List (String × α)),
      ((acc.map (·.1) ++ l.map key).Nodup) →
      l.foldl (fun a x => upsert a (key x) x) acc = acc ++ l.map (fun x => (key x, x)) := by
  intro l
  induction l with
  | nil => intro acc _; simp
  | cons x rest ih =>
      intro acc hnd
      have hnot : key x ∉ acc.map (·.1) := by
        intro hmem
        have := (List.nodup_append.mp hnd).2.2
        exact this hmem (List.mem_cons_self _ _)
      rw [List.foldl_cons, upsert_append_of_not_mem (key x) x acc hnot]
      have hnd2 : (((acc ++ [(key x, x)]).map (·.1)) ++ rest.map key).Nodup := by
        have : (acc ++ [(key x, x)]).map (·.1) ++ rest.map key
            = acc.map (·.1) ++ (x :: rest).map key := by
          simp
        rw [this]
        exact hnd
      rw [ih (acc ++ [(key x, x)]) hnd2, List.map_cons, List.append_assoc,
        List.singleton_append]

/-- On a list whose keys are already distinct the JS `Map` round-trip is the
identity. -/
theorem dedupByKey_self {α : Type} (key : α → String) (l : List α)
    (hnd : (l.map key).Nodup) : dedupByKey key l = l := by
  unfold dedupByKey
  rw [foldl_upsert_of_nodup key l [] (by simpa using hnd), List.nil_append]
  rw [List.map_map]
  exact List.map_id l

theorem upsert_keys_nodup {α : Type} (k : String) (v : α) :
    ∀ l : List (String × α), (l.map (·.1)).Nodup → ((upsert l k v).map (·.1)).Nodup := by
  intro l
  induction l with
  | nil => intro _; simp [upsert]
  | cons p rest ih =>
      intro hnd
      rw [List.map_cons, List.nodup_cons] at hnd
      unfold upsert
      by_cases hp : p.1 = k
      · rw [if_pos hp, List.map_cons, List.nodup_cons]
        exact ⟨hp ▸ hnd.1, hnd.2⟩
      · rw [if_neg hp, List.map_cons, List.nodup_cons]
        refine ⟨?_, ih hnd.2⟩
        intro hmem
        rcases List.mem_map.mp hmem with ⟨q, hq, hq1⟩
        rcases mem_upsert k v rest q hq with h | h
        · rw [h] at hq1
          exact hp hq1.symm
        · exact hnd.1 (hq1 ▸ List.mem_map_of_mem (fun r : String × α => r.1) h)

theorem upsert_pairkey {α : Type} (key : α → String) (x : α) :
    ∀ l : List (String × α), (∀ p ∈ l, p.1 = key p.2) →
      ∀ p ∈ upsert l (key x) x, p.1 = key p.2 := by
  intro l hl p hp
  rcases mem_upsert (key x) x l p hp with h | h
  · rw [h]
  · exact hl p h

theorem foldl_upsert_keys_nodup {α : Type} (key : α → String) :
    ∀ (l : List α) (acc : List (String × α)),
      (acc.map (·.1)).Nodup → (∀ p ∈ acc, p.1 = key p.2) →
      ((l.foldl (fun a x => upsert a (key x) x) acc).map (·.1)).Nodup
        ∧ ∀ p ∈ l.foldl (fun a x => upsert a (key x) x) acc, p.1 = key p.2 := by
  intro l
  induction l with
  | nil => intro acc h1 h2; exact ⟨h1, h2⟩
  | cons x rest ih =>
      intro acc h1 h2
      rw [List.foldl_cons]
      exact ih (upsert acc (key x) x) (upsert_keys_nodup (key x) x acc h1)
        (upsert_pairkey key x acc h2)

/-- The merged read model never contains two records with the same id. -/
theorem dedupByKey_keys_nodup {α : Type} (key : α → String) (l : List α) :
    ((dedupByKey key l).map key).Nodup := by
  unfold dedupByKey
  obtain ⟨h1, h2⟩ := foldl_upsert_keys_nodup key l [] (by simp) (by simp)
  rw [List.map_map]
  have hcongr : List.map (key ∘ (·.2)) (l.foldl (fun a x => upsert a (key x) x) [])
      = List.map (·.1) (l.foldl (fun a x => upsert a (key x) x) []) :=
    List.map_congr_left fun p hp => (h2 p hp).symm
  rw [hcongr]
  exact h1

/-! ## Subscription-merge state machine (C8, C9)

The nested `onSnapshot` callbacks of the `DataProvider` mutate three shared
arrays (`allItems`, `allEmployees`, `allProduction`) and publish their
deduplicated form through `setItems` / `setEmployees` / `setProduction`.
One delivered snapshot (or an employee-removal docChange) is one event. -/

structure AggState where
  itemsArr : List ProductionItem
  empArr : List Employee
  prodArr : List ProductionEntry
  items : List ProductionItem
  employees : List Employee
  production : List ProductionEntry
deriving DecidableEq, Repr

inductive SnapEvent where
  /-- snapshot of `teams/{teamId}/productionItems` -/
  | itemsSnap (teamId : String) (docs : List ProductionItem)
  /-- snapshot of `teams/{teamId}/employees` -/
  | empSnap (teamId : String) (docs : List Employee)
  /-- snapshot of `teams/{t}/employees/{employeeId}/dailyProduction` -/
  | prodSnap (employeeId : String) (docs : List ProductionEntry)
  /-- a `removed` docChange for an employee: purge that employee's entries -/
  | empRemoved (employeeId : String)
deriving DecidableEq, Repr

/-- One snapshot delivery merged into the Aggregate Store, exactly as the
listener callbacks do: replace the members belonging to the parent of the
snapshot, keep all others, then publish the id-deduplicated array. -/
def stepAgg (s : AggState) : SnapEvent → AggState
  | .itemsSnap teamId docs =>
      let arr := s.itemsArr.filter (fun i => !(i.teamId == teamId)) ++ docs
      { s with itemsArr := arr, items := dedupByKey (fun i => i.id) arr }
  | .empSnap teamId docs =>
      let arr := s.empArr.filter (fun e => !(e.teamId == teamId)) ++ docs
      { s with empArr := arr, employees := dedupByKey (fun e => e.id) arr }
  | .prodSnap employeeId docs =>
      let arr := s.prodArr.filter (fun p => !(p.employeeId == employeeId)) ++ docs
      { s with prodArr := arr, production := dedupByKey (fun p => p.id) arr }
  | .empRemoved employeeId =>
      let arr := s.prodArr.filter (fun p => !(p.employeeId == employeeId))
      { s with prodArr := arr, production := dedupByKey (fun p => p.id) arr }

/-- The provider's initial state: every collection empty. -/
def initAgg : AggState := ⟨[], [], [], [], [], []⟩

/-- C9: after any sequence of snapshot deliveries across all listener
branches (overlapping re-subscription deliveries included), none of the
exposed `items`, `employees`, `production` collections contains two records
with the same id. -/
theorem agg_store_nodup_ids (evs : List SnapEvent) :
    (((evs.foldl stepAgg initAgg).items.map (fun i => i.id)).Nodup)
    ∧ (((evs.foldl stepAgg initAgg).employees.map (fun e => e.id)).Nodup)
    ∧ (((evs.foldl stepAgg initAgg).production.map (fun p => p.id)).Nodup) := by
  suffices h : ∀ (l : List SnapEvent) (s : AggState),
      ((s.items.map (fun i => i.id)).Nodup ∧ (s.employees.map (fun e => e.id)).Nodup
        ∧ (s.production.map (fun p => p.id)).Nodup) →
      (((l.foldl stepAgg s).items.map (fun i => i.id)).Nodup
        ∧ ((l.foldl stepAgg s).employees.map (fun e => e.id)).Nodup
        ∧ ((l.foldl stepAgg s).production.map (fun p => p.id)).Nodup) by
    exact h evs initAgg (by simp [initAgg])
  intro l
  induction l with
  | nil => intro s hs; exact hs
  | cons e rest ih =>
      intro s hs
      rw [List.foldl_cons]
      apply ih
      cases e with
      | itemsSnap teamId docs =>
          exact ⟨dedupByKey_keys_nodup _ _, hs.2.1, hs.2.2⟩
      | empSnap teamId docs =>
          exact ⟨hs.1, dedupByKey_keys_nodup _ _, hs.2.2⟩
      | prodSnap employeeId docs =>
          exact ⟨hs.1, hs.2.1, dedupByKey_keys_nodup _ _⟩
      | empRemoved employeeId =>
          exact ⟨hs.1, hs.2.1, dedupByKey_keys_nodup _ _⟩

/-- Core of the scoped-merge property: replacing the members of parent `A`
and re-deduplicating leaves the slice of any other parent `B` untouched,
provided ids are unique (as store document ids are) and the delivered docs
belong to parent `A` (as all documents written under `A`'s path do). -/
theorem scoped_merge_filter {α : Type} (key : α → String) (scope : α → String)
    (arr docs : List α) (A B : String)
    (hAB : B ≠ A)
    (hdocs : ∀ d ∈ docs, scope d = A)
    (hnodupArr : (arr.map key).Nodup)
    (hnodupDocs : (docs.map key).Nodup)
    (hdisj : ∀ e ∈ arr, scope e ≠ A → ∀ d ∈ docs, key e ≠ key d) :
    (dedupByKey key (arr.filter (fun x => !(scope x == A)) ++ docs)).filter
        (fun x => scope x == B)
      = (dedupByKey key arr).filter (fun x => scope x == B) := by
  have hsub : ((arr.filter (fun x => !(scope x == A))).map key).Nodup :=
    List.Nodup.sublist (List.Sublist.map key (List.filter_sublist arr)) hnodupArr
  have hmerged : ((arr.filter (fun x => !(scope x == A)) ++ docs).map key).Nodup := by
    rw [List.map_append]
    apply List.Nodup.append hsub hnodupDocs
    intro a ha hb
    rcases List.mem_map.mp ha with ⟨e, he, rfl⟩
    rcases List.mem_map.mp hb with ⟨d, hd, hkd⟩
    have hmem := List.mem_filter.mp he
    have hscope : scope e ≠ A := by
      intro hsA
      rw [hsA] at hmem
      simp at hmem
    exact hdisj e hmem.1 hscope d hd hkd.symm
  rw [dedupByKey_self key _ hmerged, dedupByKey_self key arr hnodupArr]
  rw [List.filter_append]
  have hdocsnil : docs.filter (fun x => scope x == B) = [] := by
    rw [List.filter_eq_nil_iff]
    intro d hd
    simp [hdocs d hd, Ne.symm hAB]
  rw [hdocsnil, List.append_nil, List.filter_filter]
  apply List.filter_congr
  intro x _
  by_cases hxB : scope x = B
  · simp [hxB, hAB]
  · simp [hxB]

/-- C8: a snapshot delivered for team `A`'s employee sub-collection replaces
only team `A`'s employees in the Aggregate Store and leaves team `B`'s slice
byte-for-byte unchanged; the analogous scoped replacement holds for a team's
items snapshot and for an employee's production snapshot.  Hypotheses are
the invariants of the real system: the exposed collection is the
deduplication of the shared array, ids are unique, and every document
delivered under a parent's sub-collection path carries that parent's id. -/
theorem scoped_merge_preserves_other_parents (s : AggState) (A B X Y : String)
    (eDocs : List Employee) (iDocs : List ProductionItem) (pDocs : List ProductionEntry)
    (hAB : B ≠ A) (hXY : Y ≠ X)
    (hsyncE : s.employees = dedupByKey (fun e => e.id) s.empArr)
    (hsyncI : s.items = dedupByKey (fun i => i.id) s.itemsArr)
    (hsyncP : s.production = dedupByKey (fun p => p.id) s.prodArr)
    (heDocs : ∀ d ∈ eDocs, d.teamId = A)
    (hiDocs : ∀ d ∈ iDocs, d.teamId = A)
    (hpDocs : ∀ d ∈ pDocs, d.employeeId = X)
    (hnE : (s.empArr.map (fun e => e.id)).Nodup)
    (hnI : (s.itemsArr.map (fun i => i.id)).Nodup)
    (hnP : (s.prodArr.map (fun p => p.id)).Nodup)
    (hnED : (eDocs.map (fun e => e.id)).Nodup)
    (hnID : (iDocs.map (fun i => i.id)).Nodup)
    (hnPD : (pDocs.map (fun p => p.id)).Nodup)
    (hdE : ∀ e ∈ s.empArr, e.teamId ≠ A → ∀ d ∈ eDocs, e.id ≠ d.id)
    (hdI : ∀ i ∈ s.itemsArr, i.teamId ≠ A → ∀ d ∈ iDocs, i.id ≠ d.id)
    (hdP : ∀ p ∈ s.prodArr, p.employeeId ≠ X → ∀ d ∈ pDocs, p.id ≠ d.id) :
    (stepAgg s (.empSnap A eDocs)).employees.filter (fun e => e.teamId == B)
        = s.employees.filter (fun e => e.teamId == B)
    ∧ (stepAgg s (.itemsSnap A iDocs)).items.filter (fun i => i.teamId == B)
        = s.items.filter (fun i => i.teamId == B)
    ∧ (stepAgg s (.prodSnap X pDocs)).production.filter (fun p => p.employeeId == Y)
        = s.production.filter (fun p => p.employeeId == Y) := by
  refine ⟨?_, ?_, ?_⟩
  · rw [hsyncE]
    exact scoped_merge_filter (fun e => e.id) (fun e => e.teamId) s.empArr eDocs A B
      hAB heDocs hnE hnED hdE
  · rw [hsyncI]
    exact scoped_merge_filter (fun i => i.id) (fun i => i.teamId) s.itemsArr iDocs A B
      hAB hiDocs hnI hnID hdI
  · rw [hsyncP]
    exact scoped_merge_filter (fun p => p.id) (fun p => p.employeeId) s.prodArr pDocs X Y
      hXY hpDocs hnP hnPD hdP

/-- A small two-team Aggregate Store state used as the scoped-merge witness. -/
def aggWitnessState : AggState :=
  { itemsArr := [⟨"i1", "Chico", 10, "A"⟩, ⟨"i2", "Blanca", 13, "B"⟩]
    empArr := [⟨"e1", "Ana", "A"⟩, ⟨"e2", "Bea", "B"⟩]
    prodArr := [⟨"p1", "X", "i1", 0, 1⟩, ⟨"p2", "Y", "i1", 0, 2⟩]
    items := dedupByKey (fun i => i.id)
      [⟨"i1", "Chico", 10, "A"⟩, ⟨"i2", "Blanca", 13, "B"⟩]
    employees := dedupByKey (fun e => e.id) [⟨"e1", "Ana", "A"⟩, ⟨"e2", "Bea", "B"⟩]
    production := dedupByKey (fun p => p.id)
      [⟨"p1", "X", "i1", 0, 1⟩, ⟨"p2", "Y", "i1", 0, 2⟩] }

/-- Witness for `scoped_merge_preserves_other_parents`: snapshots for team
`A` (and employee `X`) leave team `B`'s (and employee `Y`'s) slices
unchanged. -/
theorem scoped_merge_preserves_other_parents_witness :
    (stepAgg aggWitnessState (.empSnap "A" [⟨"e3", "Cid", "A"⟩])).employees.filter
        (fun e => e.teamId == "B")
      = aggWitnessState.employees.filter (fun e => e.teamId == "B")
    ∧ (stepAgg aggWitnessState (.itemsSnap "A" [⟨"i3", "Tira", 6, "A"⟩])).items.filter
        (fun i => i.teamId == "B")
      = aggWitnessState.items.filter (fun i => i.teamId == "B")
    ∧ (stepAgg aggWitnessState (.prodSnap "X" [⟨"p3", "X", "i1", 1, 4⟩])).production.filter
        (fun p => p.employeeId == "Y")
      = aggWitnessState.production.filter (fun p => p.employeeId == "Y") :=
  scoped_merge_preserves_other_parents aggWitnessState "A" "B" "X" "Y"
    [⟨"e3", "Cid", "A"⟩] [⟨"i3", "Tira", 6, "A"⟩] [⟨"p3", "X", "i1", 1, 4⟩]
    (by decide) (by decide) rfl rfl rfl (by decide) (by decide) (by decide)
    (by decide) (by decide) (by decide) (by decide) (by decide) (by decide)
    (by decide) (by decide) (by decide)

/-! ## Cascading team deletion (C6)

The remote document store, path-addressed.  A production entry lives at
`teams/{teamPath}/employees/{entry.employeeId}/dailyProduction/{entry.id}`:
every write in the provider stores an entry under the path of the employee
named in its data, so the path's employee segment is `entry.employeeId`. -/

structure StoredEntry where
  teamPath : String
  entry : ProductionEntry
deriving DecidableEq, Repr

structure Store where
  teams : List Team
  items : List ProductionItem
  employees : List Employee
  entries : List StoredEntry
deriving DecidableEq, Repr

/-- A document address in the hierarchical store. -/
inductive DocPath where
  | teamDoc (teamId : String)
  | itemDoc (teamId itemId : String)
  | empDoc (teamId employeeId : String)
  | entryDoc (teamId employeeId entryId : String)
deriving DecidableEq, Repr

/-- The single batch `deleteTeam(teamId)` assembles after reading the team's
sub-collections: every production item of the team, then for each employee of
the team that employee's production entries followed by the employee
document, and finally the team document itself. -/
def deleteTeamBatch (s : Store) (teamId : String) : List DocPath :=
  let itemsSnap := s.items.filter (fun i => i.teamId == teamId)
  let employeesSnap := s.employees.filter (fun e => e.teamId == teamId)
  (itemsSnap.map (fun i => DocPath.itemDoc teamId i.id))
    ++ (employeesSnap.flatMap (fun emp =>
          ((s.entries.filter (fun se =>
              se.teamPath == teamId && se.entry.employeeId == emp.id)).map
            (fun se => DocPath.entryDoc teamId emp.id se.entry.id))
          ++ [DocPath.empDoc teamId emp.id]))
    ++ [DocPath.teamDoc teamId]

/-- Committing a batch of deletes removes exactly the addressed documents. -/
def applyDeletes (s : Store) (paths : List DocPath) : Store :=
  { teams := s.teams.filter (fun t => !(paths.contains (DocPath.teamDoc t.id)))
    items := s.items.filter (fun i => !(paths.contains (DocPath.itemDoc i.teamId i.id)))
    employees := s.employees.filter (fun e =>
      !(paths.contains (DocPath.empDoc e.teamId e.id)))
    entries := s.entries.filter (fun se =>
      !(paths.contains (DocPath.entryDoc se.teamPath se.entry.employeeId se.entry.id))) }

/-- `deleteTeam(teamId)`: read all affected sub-collections, then commit the
cascade as one atomic batch. -/
def deleteTeam (s : Store) (teamId : String) : Store :=
  applyDeletes s (deleteTeamBatch s teamId)

theorem teamDoc_mem_batch (s : Store) (t t' : String) :
    DocPath.teamDoc t' ∈ deleteTeamBatch s t ↔ t' = t := by
  unfold deleteTeamBatch
  constructor
  · intro h
    rcases List.mem_append.mp h with h | h
    · rcases List.mem_append.mp h with h | h
      · rcases List.mem_map.mp h with ⟨j, _, hje⟩
        exact absurd hje (by simp)
      · rcases List.mem_flatMap.mp h with ⟨emp, _, hin⟩
        rcases List.mem_append.mp hin with h2 | h2
        · rcases List.mem_map.mp h2 with ⟨se, _, hse⟩
          exact absurd hse (by simp)
        · simp at h2
    · simpa using h
  · intro h
    subst h
    exact List.mem_append.mpr (Or.inr (by simp))

theorem itemDoc_mem_batch (s : Store) (t : String) (i : ProductionItem)
    (hi : i ∈ s.items) :
    (DocPath.itemDoc i.teamId i.id ∈ deleteTeamBatch s t) ↔ i.teamId = t := by
  unfold deleteTeamBatch
  constructor
  · intro h
    rcases List.mem_append.mp h with h | h
    · rcases List.mem_append.mp h with h | h
      · rcases List.mem_map.mp h with ⟨j, _, hje⟩
        have := (DocPath.itemDoc.injEq _ _ _ _).mp hje
        exact this.1.symm
      · rcases List.mem_flatMap.mp h with ⟨emp, _, hin⟩
        rcases List.mem_append.mp hin with h2 | h2
        · rcases List.mem_map.mp h2 with ⟨se, _, hse⟩
          exact absurd hse (by simp)
        · simp at h2
    · simp at h
  · intro h
    refine List.mem_append.mpr (Or.inl (List.mem_append.mpr (Or.inl ?_)))
    refine List.mem_map.mpr ⟨i, List.mem_filter.mpr ⟨hi, by simp [h]⟩, by rw [h]⟩

theorem empDoc_mem_batch (s : Store) (t : String) (e : Employee)
    (he : e ∈ s.employees) :
    (DocPath.empDoc e.teamId e.id ∈ deleteTeamBatch s t) ↔ e.teamId = t := by
  unfold deleteTeamBatch
  constructor
  · intro h
    rcases List.mem_append.mp h with h | h
    · rcases List.mem_append.mp h with h | h
      · rcases List.mem_map.mp h with ⟨j, _, hje⟩
        exact absurd hje (by simp)
      · rcases List.mem_flatMap.mp h with ⟨emp, _, hin⟩
        rcases List.mem_append.mp hin with h2 | h2
        · rcases List.mem_map.mp h2 with ⟨se, _, hse⟩
          exact absurd hse (by simp)
        · have := List.mem_singleton.mp h2
          exact ((DocPath.empDoc.injEq _ _ _ _).mp this).1
    · simp at h
  · intro h
    refine List.mem_append.mpr (Or.inl (List.mem_append.mpr (Or.inr ?_)))
    refine List.mem_flatMap.mpr ⟨e, List.mem_filter.mpr ⟨he, by simp [h]⟩, ?_⟩
    refine List.mem_append.mpr (Or.inr ?_)
    simp [h]

theorem entryDoc_mem_batch (s : Store) (t : String) (se : StoredEntry)
    (hse : se ∈ s.entries)
    (hwf : ∀ x ∈ s.entries, ∃ emp ∈ s.employees,
      emp.teamId = x.teamPath ∧ emp.id = x.entry.employeeId) :
    (DocPath.entryDoc se.teamPath se.entry.employeeId se.entry.id ∈ deleteTeamBatch s t)
      ↔ se.teamPath = t := by
  unfold deleteTeamBatch
  constructor
  · intro h
    rcases List.mem_append.mp h with h | h
    · rcases List.mem_append.mp h with h | h
      · rcases List.mem_map.mp h with ⟨j, _, hje⟩
        exact absurd hje (by simp)
      · rcases List.mem_flatMap.mp h with ⟨emp, _, hin⟩
        rcases List.mem_append.mp hin with h2 | h2
        · rcases List.mem_map.mp h2 with ⟨se2, _, hse2⟩
          exact ((DocPath.entryDoc.injEq _ _ _ _ _ _).mp hse2).1.symm
        · simp at h2
    · simp at h
  · intro h
    rcases hwf se hse with ⟨emp, hemp, hteam, hid⟩
    refine List.mem_append.mpr (Or.inl (List.mem_append.mpr (Or.inr ?_)))
    refine List.mem_flatMap.mpr ⟨emp, List.mem_filter.mpr ⟨hemp, by simp [hteam, h]⟩, ?_⟩
    refine List.mem_append.mpr (Or.inl ?_)
    refine List.mem_map.mpr ⟨se, List.mem_filter.mpr ⟨hse, by simp [h, hid.symm]⟩, ?_⟩
    rw [h, hid]

theorem contains_eq_of_mem_iff {p : DocPath} {l : List DocPath} {b : Bool}
    (h : p ∈ l ↔ b = true) : l.contains p = b := by
  cases b with
  | false =>
      have hnot : p ∉ l := fun hm => by simpa using h.mp hm
      simpa using hnot
  | true => simpa using h.mpr rfl

/-- C6: `deleteTeam(t)` removes, in one batch, every production item of `t`,
every employee of `t`, every production entry stored under `t` (read per
employee of `t`), and `t`'s own document; each surviving collection is
exactly the original one with `t`'s documents filtered out, so records of
other teams are untouched byte-for-byte, and no surviving entry references
any of `t`'s former employees.  Hypotheses: every stored entry lives under
an existing employee of its team path (true of every write the provider
performs), and employee document ids are globally unique (store-assigned). -/
theorem deleteTeam_cascades (s : Store) (t : String)
    (hwf : ∀ x ∈ s.entries, ∃ emp ∈ s.employees,
      emp.teamId = x.teamPath ∧ emp.id = x.entry.employeeId)
    (hids : (s.employees.map (fun e => e.id)).Nodup) :
    (deleteTeam s t).teams = s.teams.filter (fun x => !(x.id == t))
    ∧ (deleteTeam s t).items = s.items.filter (fun i => !(i.teamId == t))
    ∧ (deleteTeam s t).employees = s.employees.filter (fun e => !(e.teamId == t))
    ∧ (deleteTeam s t).entries = s.entries.filter (fun se => !(se.teamPath == t))
    ∧ ∀ se ∈ (deleteTeam s t).entries, ∀ emp ∈ s.employees, emp.teamId = t →
        se.entry.employeeId ≠ emp.id := by
  have hentries : (deleteTeam s t).entries
      = s.entries.filter (fun se => !(se.teamPath == t)) := by
    unfold deleteTeam applyDeletes
    apply List.filter_congr
    intro se hse
    rw [contains_eq_of_mem_iff
      ((entryDoc_mem_batch s t se hse hwf).trans beq_iff_eq.symm)]
  refine ⟨?_, ?_, ?_, hentries, ?_⟩
  · unfold deleteTeam applyDeletes
    apply List.filter_congr
    intro x _
    rw [contains_eq_of_mem_iff
      ((teamDoc_mem_batch s t x.id).trans beq_iff_eq.symm)]
  · unfold deleteTeam applyDeletes
    apply List.filter_congr
    intro i hi
    rw [contains_eq_of_mem_iff
      ((itemDoc_mem_batch s t i hi).trans beq_iff_eq.symm)]
  · unfold deleteTeam applyDeletes
    apply List.filter_congr
    intro e he
    rw [contains_eq_of_mem_iff
      ((empDoc_mem_batch s t e he).trans beq_iff_eq.symm)]
  · intro se hse emp hemp ht heq
    rw [hentries] at hse
    have hmem := List.mem_filter.mp hse
    have hpath : se.teamPath ≠ t := by
      intro hp
      rw [hp] at hmem
      simp at hmem
    rcases hwf se hmem.1 with ⟨emp2, hemp2, hteam2, hid2⟩
    have : emp2 = emp :=
      List.inj_on_of_nodup_map hids hemp2 hemp (by rw [hid2, heq])
    rw [this] at hteam2
    exact hpath (by rw [← hteam2, ht])

/-- A two-team store used as the cascade witness: an item, an employee and
a production entry per team. -/
def twoTeamStore : Store :=
  { teams := [⟨"A", "Hojas"⟩, ⟨"B", "Corazones"⟩]
    items := [⟨"i1", "Blanca", 13, "A"⟩, ⟨"i2", "Chico", 10, "B"⟩]
    employees := [⟨"e1", "Ana", "A"⟩, ⟨"e2", "Bea", "B"⟩]
    entries := [⟨"A", ⟨"p1", "e1", "i1", 0, 5⟩⟩, ⟨"B", ⟨"p2", "e2", "i2", 0, 7⟩⟩] }

/-- Witness for `deleteTeam_cascades`: deleting team `A` from the two-team
store leaves exactly team `B`'s records. -/
theorem deleteTeam_cascades_witness :
    ((∀ x ∈ twoTeamStore.entries, ∃ emp ∈ twoTeamStore.employees,
        emp.teamId = x.teamPath ∧ emp.id = x.entry.employeeId)
      ∧ (twoTeamStore.employees.map (fun e => e.id)).Nodup)
    ∧ ((deleteTeam twoTeamStore "A").teams
          = twoTeamStore.teams.filter (fun x => !(x.id == "A"))
       ∧ (deleteTeam twoTeamStore "A").items
          = twoTeamStore.items.filter (fun i => !(i.teamId == "A"))
       ∧ (deleteTeam twoTeamStore "A").employees
          = twoTeamStore.employees.filter (fun e => !(e.teamId == "A"))
       ∧ (deleteTeam twoTeamStore "A").entries
          = twoTeamStore.entries.filter (fun se => !(se.teamPath == "A"))
       ∧ ∀ se ∈ (deleteTeam twoTeamStore "A").entries,
           ∀ emp ∈ twoTeamStore.employees, emp.teamId = "A" →
             se.entry.employeeId ≠ emp.id) :=
  ⟨⟨by decide, by decide⟩, deleteTeam_cascades twoTeamStore "A" (by decide) (by decide)⟩
